import Mathlib

/-!
Verification of the release-preparation rewrite engine of the `setup-repo`
CLI (`src/commands/prepare-release.ts` and its later revision).

JavaScript strings are modelled as `List Char`; the file system is a tree of
named entries rooted at the target directory.  Every operation of the source
is translated into a pure Lean function over these types.
-/

set_option autoImplicit false
set_option maxRecDepth 4000

namespace SetupRepo

/-- JavaScript strings, modelled as lists of characters. -/
abbrev Str := List Char

/-- Coerce a Lean string literal to the `Str` model. -/
def str (s : String) : Str := s.data

/-- The backtick character (written by code to avoid the literal symbol). -/
def backtickChar : Char := Char.ofNat 96

/-- The opening-brace character. -/
def lbrace : Char := Char.ofNat 123

/-- The closing-brace character. -/
def rbrace : Char := Char.ofNat 125

/-- `begins pat s` is true when `s` starts with the literal `pat`
(JavaScript `String.prototype.startsWith`). -/
def begins : Str → Str → Bool
  | [], _ => true
  | _ :: _, [] => false
  | c :: cs, d :: ds => c = d && begins cs ds

/-- Leftmost literal match: `splitFirst pat s = some (a, b)` when
`s = a ++ pat ++ b` and `pat` does not match at any position before `a.length`.
This is the search underlying JavaScript `String.prototype.replace` with a
string pattern. -/
def splitFirst (pat : Str) : Str → Option (Str × Str)
  | [] => if begins pat [] then some ([], []) else none
  | c :: cs =>
    if begins pat (c :: cs) then some ([], (c :: cs).drop pat.length)
    else
      match splitFirst pat cs with
      | some (a, b) => some (c :: a, b)
      | none => none

/-- Literal substring test (JavaScript `String.prototype.includes`). -/
def containsStr (pat s : Str) : Bool := (splitFirst pat s).isSome

/-- JavaScript `String.prototype.trimStart`: drop leading whitespace. -/
def trimStart (s : Str) : Str := s.dropWhile Char.isWhitespace

/-- JavaScript `String.prototype.trim`: drop whitespace at both ends. -/
def trim (s : Str) : Str :=
  ((s.dropWhile Char.isWhitespace).reverse.dropWhile Char.isWhitespace).reverse

/-- `content.split('\n')`: split a string on newline separators; always
returns at least one (possibly empty) piece. -/
def splitNl : Str → List Str
  | [] => [[]]
  | c :: cs =>
    match splitNl cs with
    | r :: rs => if c = '\n' then [] :: r :: rs else (c :: r) :: rs
    | [] => [[c]]

/-- `lines.join('\n')`: interleave newline between the pieces. -/
def joinNl : List Str → Str
  | [] => []
  | [l] => l
  | l :: l' :: ls => l ++ '\n' :: joinNl (l' :: ls)

theorem splitNl_ne_nil (s : Str) : splitNl s ≠ [] := by
  induction s with
  | nil => simp [splitNl]
  | cons c cs ih =>
    simp only [splitNl]
    match h : splitNl cs with
    | [] => exact absurd h ih
    | r :: rs => by_cases hc : c = '\n' <;> simp [hc]

theorem joinNl_splitNl (s : Str) : joinNl (splitNl s) = s := by
  induction s with
  | nil => rfl
  | cons c cs ih =>
    simp only [splitNl]
    match h : splitNl cs with
    | [] => exact absurd h (splitNl_ne_nil cs)
    | r :: rs =>
      rw [h] at ih
      by_cases hc : c = '\n'
      · subst hc
        simpa [joinNl] using ih
      · simp only [if_neg hc]
        cases rs with
        | nil => simpa [joinNl] using ih
        | cons r' rs' => simpa [joinNl] using congrArg (c :: ·) ih

/-- Is `c` one of the characters that makes `'$' :: c :: _` a substitution
sequence in a JavaScript replacement string (`$$`, `$&`, dollar-backtick,
`$'`; with a string pattern there are no capture groups, so `$digit` and
`$<name>` stay literal)? -/
def isSubstChar (c : Char) : Bool :=
  c = '$' || c = '&' || c = backtickChar || c = '\''

/-- The `GetSubstitution` step of JavaScript `String.prototype.replace`:
expand the replacement string given the matched text `m`, the text
`bef` before the match and the text `aft` after it. -/
def substDollar (m bef aft : Str) : Str → Str
  | [] => []
  | c :: rest =>
    if c = '$' then
      match rest with
      | [] => ['$']
      | c' :: rest' =>
        if c' = '$' then '$' :: substDollar m bef aft rest'
        else if c' = '&' then m ++ substDollar m bef aft rest'
        else if c' = backtickChar then bef ++ substDollar m bef aft rest'
        else if c' = '\'' then aft ++ substDollar m bef aft rest'
        else '$' :: substDollar m bef aft (c' :: rest')
    else c :: substDollar m bef aft rest

/-- Does the replacement string contain a `$`-substitution sequence
(`$$`, `$&`, dollar-backtick or `$'`)? -/
def hasDollarEscape : Str → Bool
  | [] => false
  | c :: rest =>
    if c = '$' then
      match rest with
      | [] => false
      | c' :: rest' => if isSubstChar c' then true else hasDollarEscape (c' :: rest')
    else hasDollarEscape rest

/-- JavaScript `s.replace(pat, repl)` with a string pattern: replace the
first literal occurrence of `pat`, expanding `$`-sequences in `repl`. -/
def jsReplace (pat repl s : Str) : Str :=
  match splitFirst pat s with
  | some (a, b) => a ++ substDollar pat a b repl ++ b
  | none => s

theorem substDollar_of_not_hasDollarEscape (m bef aft : Str) :
    ∀ n (repl : Str), repl.length ≤ n → hasDollarEscape repl = false →
      substDollar m bef aft repl = repl := by
  intro n
  induction n with
  | zero =>
    intro repl hlen _
    match repl with
    | [] => rfl
    | _ :: _ => simp at hlen
  | succ n ih =>
    intro repl hlen hesc
    match repl with
    | [] => rfl
    | c :: rest =>
      by_cases hc : c = '$'
      · subst hc
        match rest with
        | [] => rfl
        | c' :: rest' =>
          by_cases hs : isSubstChar c'
          · simp [hasDollarEscape, hs] at hesc
          · have hesc' : hasDollarEscape (c' :: rest') = false := by
              simpa [hasDollarEscape, hs] using hesc
            have hlen' : (c' :: rest').length ≤ n := by
              simpa using Nat.le_of_succ_le_succ hlen
            have h1 : ¬ c' = '$' := by
              intro h; exact hs (by simp [isSubstChar, h])
            have h2 : ¬ c' = '&' := by
              intro h; exact hs (by simp [isSubstChar, h])
            have h3 : ¬ c' = backtickChar := by
              intro h; exact hs (by simp [isSubstChar, h])
            have h4 : ¬ c' = '\'' := by
              intro h; exact hs (by simp [isSubstChar, h])
            have hrec := ih (c' :: rest') hlen' hesc'
            simp [substDollar, h1, h2, h3, h4, hrec]
      · have hesc' : hasDollarEscape rest = false := by
          rw [hasDollarEscape.eq_def] at hesc
          simpa [hc] using hesc
        have hlen' : rest.length ≤ n := by
          simpa using Nat.le_of_succ_le_succ hlen
        have hrec := ih rest hlen' hesc'
        rw [substDollar.eq_def]
        simp [hc, hrec]

/-- A replacement string without `$`-sequences is inserted literally. -/
theorem substDollar_eq_self (m bef aft repl : Str)
    (h : hasDollarEscape repl = false) : substDollar m bef aft repl = repl :=
  substDollar_of_not_hasDollarEscape m bef aft repl.length repl le_rfl h

theorem begins_eq_append {pat s : Str} (h : begins pat s = true) :
    s = pat ++ s.drop pat.length := by
  induction pat generalizing s with
  | nil => simp
  | cons c cs ih =>
    match s with
    | [] => simp [begins] at h
    | d :: ds =>
      simp only [begins, Bool.and_eq_true, decide_eq_true_eq] at h
      obtain ⟨rfl, h2⟩ := h
      simpa using ih h2

theorem splitFirst_some_eq {pat s a b : Str}
    (h : splitFirst pat s = some (a, b)) : s = a ++ pat ++ b := by
  induction s generalizing a b with
  | nil =>
    simp only [splitFirst] at h
    by_cases hb : begins pat [] = true
    · rw [if_pos hb] at h
      cases h
      have := begins_eq_append hb
      simp at this
      simp [this]
    · rw [if_neg hb] at h
      cases h
  | cons c cs ih =>
    simp only [splitFirst] at h
    by_cases hb : begins pat (c :: cs) = true
    · rw [if_pos hb] at h
      cases h
      simpa using begins_eq_append hb
    · rw [if_neg hb] at h
      match hrec : splitFirst pat cs with
      | some (a', b') =>
        rw [hrec] at h
        cases h
        simpa using ih hrec
      | none => rw [hrec] at h; cases h

theorem splitFirst_length {pat s a b : Str} (hpat : pat ≠ [])
    (h : splitFirst pat s = some (a, b)) : b.length < s.length := by
  induction s generalizing a b with
  | nil =>
    simp only [splitFirst] at h
    have hb : begins pat [] = false := by
      match pat with
      | [] => exact absurd rfl hpat
      | _ :: _ => rfl
    rw [hb] at h
    simp at h
  | cons c cs ih =>
    simp only [splitFirst] at h
    by_cases hb : begins pat (c :: cs) = true
    · rw [if_pos hb] at h
      cases h
      have hlen : pat.length ≠ 0 := by
        intro h0
        exact hpat (List.eq_nil_of_length_eq_zero h0)
      simp only [List.length_drop, List.length_cons]
      omega
    · rw [if_neg hb] at h
      match hrec : splitFirst pat cs with
      | some (a', b') =>
        rw [hrec] at h
        cases h
        have := ih hrec
        simp only [List.length_cons]
        omega
      | none => rw [hrec] at h; cases h

/-- Fuelled count of non-overlapping literal occurrences, scanning left to
right (the occurrences `String.prototype.replace` would visit in turn). -/
def countOccF (pat : Str) : Nat → Str → Nat
  | 0, _ => 0
  | fuel + 1, s =>
    match splitFirst pat s with
    | none => 0
    | some (_, b) => 1 + countOccF pat fuel b

/-- Number of non-overlapping literal occurrences of `pat` in `s`. -/
def countOcc (pat s : Str) : Nat := countOccF pat (s.length + 1) s

theorem countOccF_eq_countOcc {pat : Str} (hpat : pat ≠ []) :
    ∀ f s, s.length < f → countOccF pat f s = countOcc pat s := by
  intro f
  induction f using Nat.strong_induction_on with
  | _ f ih =>
    intro s hf
    match f, hf with
    | f + 1, hf =>
      match hsp : splitFirst pat s with
      | none =>
        have k1 : countOccF pat (f + 1) s = 0 := by rw [countOccF, hsp]
        have k2 : countOcc pat s = 0 := by rw [countOcc, countOccF, hsp]
        rw [k1, k2]
      | some (a, b) =>
        have hblt : b.length < s.length := splitFirst_length hpat hsp
        have h1 : countOccF pat f b = countOcc pat b :=
          ih f (Nat.lt_succ_self f) b (Nat.lt_of_lt_of_le hblt (Nat.lt_succ_iff.mp hf))
        have h2 : countOccF pat s.length b = countOcc pat b :=
          ih s.length hf b hblt
        have k1 : countOccF pat (f + 1) s = 1 + countOccF pat f b := by
          rw [countOccF, hsp]
        have k2 : countOcc pat s = 1 + countOccF pat s.length b := by
          rw [countOcc, countOccF, hsp]
        rw [k1, k2, h1, h2]

/-- Unfolding `countOcc` at the first occurrence. -/
theorem countOcc_cons {pat s a b : Str} (hpat : pat ≠ [])
    (h : splitFirst pat s = some (a, b)) :
    countOcc pat s = 1 + countOcc pat b := by
  have hblt : b.length < s.length := splitFirst_length hpat h
  have k : countOcc pat s = 1 + countOccF pat s.length b := by
    rw [countOcc, countOccF, h]
  rw [k, countOccF_eq_countOcc hpat s.length b hblt]

/-- JavaScript values as produced by `JSON.parse`, plus `undefined` for the
result of reading an absent object property.  Object fields keep their
authored order, as JavaScript objects do for string keys. -/
inductive Json where
  | undefined
  | null
  | bool (b : Bool)
  | num (n : Int)
  | str (s : Str)
  | arr (elems : List Json)
  | obj (fields : List (String × Json))

/-- Is this the JavaScript `undefined` value? -/
def Json.isUndefined : Json → Bool
  | .undefined => true
  | _ => false

/-- Is this the JavaScript `null` value? -/
def Json.isNull : Json → Bool
  | .null => true
  | _ => false

/-- JavaScript truthiness. -/
def truthy : Json → Bool
  | .undefined => false
  | .null => false
  | .bool b => b
  | .num n => n ≠ 0
  | .str s => s ≠ []
  | .arr _ => true
  | .obj _ => true

/-- First binding of key `k` in an association list of fields. -/
def getVal : List (String × Json) → String → Option Json
  | [], _ => none
  | (k', v) :: rest, k => if k' = k then some v else getVal rest k

/-- `o[k] = v` on a field list: overwrite the first binding of `k` in
place, or append a new binding at the end (JavaScript property
assignment order semantics). -/
def setVal : List (String × Json) → String → Json → List (String × Json)
  | [], k, v => [(k, v)]
  | (k', v') :: rest, k, v =>
    if k' = k then (k, v) :: rest else (k', v') :: setVal rest k v

/-- `delete o[k]` on a field list. -/
def delVal (l : List (String × Json)) (k : String) : List (String × Json) :=
  l.filter (fun kv => kv.1 ≠ k)

/-- Property read `j[k]`; yields `undefined` when the key is absent or the
value is not an object (matching use sites in the source, which never
read a property off `null`). -/
def jsField (j : Json) (k : String) : Json :=
  match j with
  | .obj fields => (getVal fields k).getD .undefined
  | _ => .undefined

/-- Property assignment `j[k] = v` (meaningful only on objects; other
values are returned unchanged, as a property write on a primitive is a
silent no-op in non-strict JavaScript). -/
def jsSetField (j : Json) (k : String) (v : Json) : Json :=
  match j with
  | .obj fields => .obj (setVal fields k v)
  | _ => j

/-- `delete j[k]` (meaningful only on objects). -/
def jsDelField (j : Json) (k : String) : Json :=
  match j with
  | .obj fields => .obj (delVal fields k)
  | _ => j

mutual

/-- JavaScript `String(v)` coercion, used when a parsed value flows into a
string position. -/
def jsString : Json → Str
  | .undefined => str "undefined"
  | .null => str "null"
  | .bool b => if b then str "true" else str "false"
  | .num n => (toString n).data
  | .str s => s
  | .arr elems => jsStringElems elems
  | .obj _ => str "[object Object]"

/-- `Array.prototype.join(',')` as used by array-to-string coercion
(`null` and `undefined` elements render as empty). -/
def jsStringElems : List Json → Str
  | [] => []
  | [e] => if e.isUndefined || e.isNull then [] else jsString e
  | e :: e' :: rest =>
    (if e.isUndefined || e.isNull then [] else jsString e) ++
      ',' :: jsStringElems (e' :: rest)

end

/-- Escape one character for a JSON string literal, as `JSON.stringify`
does (`\u` escapes for the remaining control characters). -/
def escapeChar (c : Char) : Str :=
  if c = '"' then ['\\', '"']
  else if c = '\\' then ['\\', '\\']
  else if c = '\n' then ['\\', 'n']
  else if c = '\t' then ['\\', 't']
  else if c = '\r' then ['\\', 'r']
  else if c = Char.ofNat 8 then ['\\', 'b']
  else if c = Char.ofNat 12 then ['\\', 'f']
  else if c.toNat < 32 then
    ['\\', 'u', '0', '0', hexDigit (c.toNat / 16), hexDigit (c.toNat % 16)]
  else [c]
where
  hexDigit (n : Nat) : Char :=
    if n < 10 then Char.ofNat (48 + n) else Char.ofNat (87 + n)

/-- A JSON string literal. -/
def quoteStr (s : Str) : Str :=
  '"' :: (s.flatMap escapeChar) ++ ['"']

/-- `n` two-space indentation steps. -/
def indentOf (n : Nat) : Str := List.replicate (2 * n) ' '

/-- Join rendered JSON members with `",\n"`. -/
def joinMembers : List Str → Str
  | [] => []
  | [x] => x
  | x :: y :: rest => x ++ ',' :: '\n' :: joinMembers (y :: rest)

mutual

/-- `JSON.stringify(v, null, 2)` at indentation level `lvl`: two-space
indentation, fields in authored order, `undefined` fields skipped
(a top-level `undefined`, which `JSON.stringify` maps to no output,
renders as the empty string). -/
def stringifyV (lvl : Nat) : Json → Str
  | .undefined => []
  | .null => str "null"
  | .bool b => if b then str "true" else str "false"
  | .num n => (toString n).data
  | .str s => quoteStr s
  | .arr elems =>
    match elems with
    | [] => ['[', ']']
    | e :: rest =>
      ['[', '\n'] ++ joinMembers (renderElems lvl (e :: rest)) ++
        '\n' :: indentOf lvl ++ [']']
  | .obj fields =>
    match renderFields lvl fields with
    | [] => [lbrace, rbrace]
    | m :: ms =>
      lbrace :: '\n' :: joinMembers (m :: ms) ++
        '\n' :: indentOf lvl ++ [rbrace]

/-- Array members, each indented one level deeper; `undefined` elements
render as `null`. -/
def renderElems (lvl : Nat) : List Json → List Str
  | [] => []
  | e :: rest =>
    (indentOf (lvl + 1) ++
      (if e.isUndefined then str "null" else stringifyV (lvl + 1) e)) ::
      renderElems lvl rest

/-- Object members, skipping `undefined`-valued fields. -/
def renderFields (lvl : Nat) : List (String × Json) → List Str
  | [] => []
  | (k, v) :: rest =>
    if v.isUndefined then renderFields lvl rest
    else
      (indentOf (lvl + 1) ++ quoteStr (str k) ++ ':' :: ' ' ::
        stringifyV (lvl + 1) v) :: renderFields lvl rest

end

/-- `JSON.stringify(v, null, 2)`. -/
def jsonStringifyPretty (j : Json) : Str := stringifyV 0 j

/-- Content of one file.  A structured document that parses as JSON is
carried in parsed form (`json`); plain text (`text`) is content the JSON
layer rejects, so `JSON.parse` on a `text` file models a parse error.
The canonical text of a `json` file is the serialization the patcher
itself writes. -/
inductive FileContent where
  | text (s : Str)
  | json (j : Json)

/-- The text read from a file with `fs.readFile(..., 'utf-8')`. -/
def FileContent.asText : FileContent → Str
  | .text s => s
  | .json j => jsonStringifyPretty j ++ ['\n']

/-- One directory entry of the project tree. -/
inductive Entry where
  | file (name : String) (content : FileContent)
  | dir (name : String) (sub : List Entry)

/-- The project tree: the entries of the target directory. -/
abbrev FS := List Entry

/-- The content of the file named `n` among `es` (directories with the
same name are not files and are skipped). -/
def readFileIn : FS → String → Option FileContent
  | [], _ => none
  | .file n' c :: rest, n => if n' = n then some c else readFileIn rest n
  | .dir _ _ :: rest, n => readFileIn rest n

/-- The entries of the sub-directory named `n` among `es`. -/
def findDir : FS → String → Option FS
  | [], _ => none
  | .file _ _ :: rest, n => findDir rest n
  | .dir n' sub :: rest, n => if n' = n then some sub else findDir rest n

/-- Read a file at a relative path given as segments. -/
def readFile (fs : FS) : List String → Option FileContent
  | [] => none
  | [n] => readFileIn fs n
  | n :: n' :: rest =>
    match findDir fs n with
    | some sub => readFile sub (n' :: rest)
    | none => none

/-- Replace the first file named `n`, or append a new one. -/
def setFileIn : FS → String → FileContent → FS
  | [], n, c => [.file n c]
  | .file n' c' :: rest, n, c =>
    if n' = n then .file n c :: rest else .file n' c' :: setFileIn rest n c
  | .dir d sub :: rest, n, c => .dir d sub :: setFileIn rest n c

/-- Replace the entries of the first directory named `n`, or append a
new directory. -/
def setDirIn : FS → String → FS → FS
  | [], n, sub => [.dir n sub]
  | .file f c :: rest, n, sub => .file f c :: setDirIn rest n sub
  | .dir n' sub' :: rest, n, sub =>
    if n' = n then .dir n sub :: rest else .dir n' sub' :: setDirIn rest n sub

/-- Write a file at a relative path, creating intermediate directories
(the only write whose parents may be missing is preceded by
`fs.mkdir(..., { recursive: true })` in the source). -/
def writeFile (fs : FS) : List String → FileContent → FS
  | [], _ => fs
  | [n], c => setFileIn fs n c
  | n :: n' :: rest, c =>
    setDirIn fs n (writeFile ((findDir fs n).getD []) (n' :: rest) c)

theorem readFileIn_setFileIn (es : FS) (n : String) (c : FileContent) :
    readFileIn (setFileIn es n c) n = some c := by
  induction es with
  | nil => simp [setFileIn, readFileIn]
  | cons e rest ih =>
    match e with
    | .file n' c' =>
      by_cases h : n' = n
      · simp [setFileIn, readFileIn, h]
      · simp [setFileIn, readFileIn, h, ih]
    | .dir d sub => simp [setFileIn, readFileIn, ih]

theorem findDir_setDirIn (es : FS) (n : String) (sub : FS) :
    findDir (setDirIn es n sub) n = some sub := by
  induction es with
  | nil => simp [setDirIn, findDir]
  | cons e rest ih =>
    match e with
    | .file f c => simp [setDirIn, findDir, ih]
    | .dir n' sub' =>
      by_cases h : n' = n
      · simp [setDirIn, findDir, h]
      · simp [setDirIn, findDir, h, ih]

/-- Reading back a freshly written path yields the written content. -/
theorem readFile_writeFile (fs : FS) (p : List String) (c : FileContent)
    (hp : p ≠ []) : readFile (writeFile fs p c) p = some c := by
  induction p generalizing fs with
  | nil => exact absurd rfl hp
  | cons n rest ih =>
    match rest with
    | [] => simpa [writeFile, readFile] using readFileIn_setFileIn fs n c
    | n' :: rest' =>
      simp only [writeFile, readFile, findDir_setDirIn]
      exact ih _ (by simp)

/-- Errors thrown by the release-preparation code: `error` for
`new Error(message)`, `enoent` for a file-system `ENOENT` rejection that
is rethrown unwrapped, `syntaxError` for a `JSON.parse` failure. -/
inductive JsError where
  | error (message : String)
  | enoent (path : String)
  | syntaxError
deriving DecidableEq

/-- Fatal-error message when the package-metadata file is absent. -/
def pkgNotFoundMsg : String :=
  "package.json not found. Are you in a project directory?"

/-- Fatal-error message when the non-public marker is absent or falsy. -/
def notDevcodeMsg : String :=
  "This project is not a devcode project (missing \"private\": true in package.json)"

/-- `detectDevcode` (prepare-release.ts, lines 38-63 of the current
revision): read `package.json`; if absent fail with the
package-metadata-missing error; parse; if `private` is falsy fail with
the not-a-development-project error; otherwise return `pkg.name`
verbatim.  The embedding consumes the file system and returns only a
value: the source performs no writes here. -/
def detectDevcode (fs : FS) : Except JsError Json :=
  match readFile fs ["package.json"] with
  | none => .error (.error pkgNotFoundMsg)
  | some (.text _) => .error .syntaxError
  | some (.json pkg) =>
    if truthy (jsField pkg "private") then .ok (jsField pkg "name")
    else .error (.error notDevcodeMsg)

/-- `replaceInPackageJson` (current revision, lines 69-89): read and parse
`package.json` (absent file: the raw `ENOENT` rejection propagates), set
`pkg.name`, delete `pkg.private`, write back
`JSON.stringify(pkg, null, 2) + "\n"`. -/
def replaceInPackageJson (_devcode publishName : Str) (fs : FS) :
    Except JsError FS :=
  match readFile fs ["package.json"] with
  | none => .error (.enoent "package.json")
  | some (.text _) => .error .syntaxError
  | some (.json pkg) =>
    .ok (writeFile fs ["package.json"]
      (.json (jsDelField (jsSetField pkg "name" (.str publishName)) "private")))

/-- `updatePackageJson` (first revision, lines 52-76): same rewrite, but
additionally returns the pre-rewrite `pkg.name` to the caller. -/
def updatePackageJson (publishName : Str) (fs : FS) :
    Except JsError (Json × FS) :=
  match readFile fs ["package.json"] with
  | none => .error (.enoent "package.json")
  | some (.text _) => .error .syntaxError
  | some (.json pkg) =>
    .ok (jsField pkg "name",
      writeFile fs ["package.json"]
        (.json (jsDelField (jsSetField pkg "name" (.str publishName)) "private")))

/-- Does this line start (after leading whitespace) with the `name:` key? -/
def isMarkerLine (l : Str) : Bool := begins (str "name:") (trimStart l)

/-- The loop of `replaceInCodeqlConfig` (lines 115-123): walk the lines,
and in the first line whose trimmed content starts with `name:` replace
the first literal occurrence of the devcode; `break` afterwards. -/
def patchLines (devcode publishName : Str) : List Str → List Str
  | [] => []
  | l :: ls =>
    if isMarkerLine l then jsReplace devcode publishName l :: ls
    else l :: patchLines devcode publishName ls

/-- The pure text transformation of `replaceInCodeqlConfig`:
split on newlines, patch the first `name:` line, join back. -/
def replaceInCodeqlConfigContent (devcode publishName content : Str) : Str :=
  joinNl (patchLines devcode publishName (splitNl content))

/-- The codeql-config path. -/
def codeqlPath : List String := [".github", "codeql", "codeql-config.yml"]

/-- `replaceInCodeqlConfig` (current revision, lines 95-127): an absent
file is a no-op success; otherwise rewrite the file text. -/
def replaceInCodeqlConfig (devcode publishName : Str) (fs : FS) :
    Except JsError FS :=
  match readFile fs codeqlPath with
  | none => .ok fs
  | some fc =>
    .ok (writeFile fs codeqlPath
      (.text (replaceInCodeqlConfigContent devcode publishName fc.asText)))

/-- The tagpr-workflow path. -/
def tagprPath : List String := [".github", "workflows", "tagpr.yml"]

/-- Modelled from the spec: the release variant of the
`common/workflows/tagpr.yml.ejs` template (rendered with
`isDevcode: false`).  The template file itself is not part of the
sources; per the spec's regeneration contract, every credential
reference names the long-lived `PAT_FOR_TAGPR` secret and no
"update after release" marker comment remains. -/
def releaseTagprTemplate : Str := str
  "name: tagpr\non:\n  push:\n    branches: [main]\n\njobs:\n  tagpr:\n    runs-on: ubuntu-latest\n    steps:\n      - uses: actions/checkout@v6\n        with:\n          token: $\x7b\x7b secrets.PAT_FOR_TAGPR \x7d\x7d\n\n      - uses: Songmu/tagpr@v1\n        env:\n          GITHUB_TOKEN: $\x7b\x7b secrets.PAT_FOR_TAGPR \x7d\x7d\n"

/-- Modelled from the spec: the rendered `common/workflows/publish.yml.ejs`
template for npm publishing (a release-only artifact; content opaque to
the rewrite engine and free of any placeholder name). -/
def publishTemplate : Str := str
  "name: publish\non:\n  release:\n    types: [published]\n\njobs:\n  publish:\n    runs-on: ubuntu-latest\n    steps:\n      - uses: actions/checkout@v6\n      - run: npm publish\n"

/-- `replaceInTagprWorkflow` (current revision, lines 133-154): if the
workflow file is absent (`fs.access` rejects) this is a no-op success;
otherwise the whole file is regenerated from the release variant of the
template and overwritten. -/
def replaceInTagprWorkflow (_devcode _publishName : Str) (fs : FS) :
    Except JsError FS :=
  match readFile fs tagprPath with
  | none => .ok fs
  | some _ => .ok (writeFile fs tagprPath (.text releaseTagprTemplate))

/-- `generatePublishWorkflow` (lines 159-171): create
`.github/workflows` if needed and write the rendered publish workflow. -/
def generatePublishWorkflow (fs : FS) : Except JsError FS :=
  .ok (writeFile fs [".github", "workflows", "publish.yml"]
    (.text publishTemplate))

/-- One managed location: file, description, rewrite strategy. -/
structure MLoc where
  file : String
  description : String
  replace : Str → Str → FS → Except JsError FS

/-- `MANAGED_LOCATIONS` (lines 176-192), in declared order. -/
def MANAGED_LOCATIONS : List MLoc :=
  [⟨"package.json", "name field", replaceInPackageJson⟩,
   ⟨".github/codeql/codeql-config.yml", "name field", replaceInCodeqlConfig⟩,
   ⟨".github/workflows/tagpr.yml", "GITHUB_TOKEN to PAT_FOR_TAGPR", replaceInTagprWorkflow⟩]

/-- One reported unmanaged occurrence: relative path, 1-based line
number, trimmed snippet truncated to 80 characters. -/
structure Occurrence where
  file : String
  line : Nat
  content : Str
deriving DecidableEq

mutual

/-- `findFilesRecursive` (lines 244-269) on one entry: files always
collected; a directory is descended only when its *name* is not in
`excludeDirs`. -/
def walkEntry (excludeDirs : List String) : Entry → List (List String)
  | .file n _ => [[n]]
  | .dir n sub =>
    if excludeDirs.contains n then []
    else (walkEntries excludeDirs sub).map (fun p => n :: p)

/-- `findFilesRecursive` over a directory's entries, in readdir order:
relative paths (as segment lists) of every file under the tree. -/
def walkEntries (excludeDirs : List String) : FS → List (List String)
  | [] => []
  | e :: rest => walkEntry excludeDirs e ++ walkEntries excludeDirs rest

end

/-- Scan the lines of one file (loop of lines 224-231): 1-based line
numbers, snippet `line.trim().substring(0, 80)`. -/
def scanLines (rel : String) (devcode : Str) : Nat → List Str → List Occurrence
  | _, [] => []
  | i, l :: ls =>
    (if containsStr devcode l then [⟨rel, i + 1, (trim l).take 80⟩] else []) ++
      scanLines rel devcode (i + 1) ls

/-- Join path segments with `/` (the `path.relative` output). -/
def joinPath (p : List String) : String := String.intercalate "/" p

/-- `findUnmanagedOccurrences` (lines 197-239): walk the tree with the
fixed exclusion list, skip files at managed relative paths, and report
every line containing the devcode literally. -/
def findUnmanagedOccurrences (fs : FS) (devcode : Str) : List Occurrence :=
  let managedFiles := MANAGED_LOCATIONS.map MLoc.file
  let filesToScan := walkEntries ["node_modules", ".git", "dist", "bun.lockb"] fs
  filesToScan.flatMap (fun p =>
    let rel := joinPath p
    if managedFiles.contains rel then []
    else
      match readFile fs p with
      | none => []
      | some fc => scanLines rel devcode 0 (splitNl fc.asText))

/-- Per-location outcome in the run report: a success line or a caught
error turned into a warning line. -/
inductive Outcome where
  | ok
  | warn (e : JsError)
deriving DecidableEq

/-- The structured content of the run's terminal report. -/
structure Report where
  locations : List (String × Outcome)
  publish : Outcome
  unmanaged : List Occurrence

/-- The per-location `try`/`catch` of the orchestrator (lines 287-296):
a thrown error becomes a warning and the previous file-system state is
kept (every embedded strategy fails, if at all, before its single
write). -/
def runStrategy (strat : FS → Except JsError FS) (fs : FS) : Outcome × FS :=
  match strat fs with
  | .ok fs' => (.ok, fs')
  | .error e => (.warn e, fs)

/-- `ApplyManagedRewrites`: fold the registry in declared order,
catching per-location errors. -/
def applyManaged (devcode publishName : Str) :
    List MLoc → FS → List (String × Outcome) × FS
  | [], fs => ([], fs)
  | loc :: rest, fs =>
    let (o, fs') := runStrategy (loc.replace devcode publishName) fs
    let (os, fs'') := applyManaged devcode publishName rest fs'
    ((loc.file, o) :: os, fs'')

/-- `prepareRelease` (current revision, lines 274-344): detect the
devcode (the only fatal step), apply every managed rewrite continuing
past failures, generate the publish workflow (also caught), scan for
unmanaged occurrences last, and return the terminal report. -/
def prepareRelease (publishName : Str) (fs : FS) :
    Except JsError Report × FS :=
  match detectDevcode fs with
  | .error e => (.error e, fs)
  | .ok nameVal =>
    let devcode := jsString nameVal
    let (locResults, fs1) := applyManaged devcode publishName MANAGED_LOCATIONS fs
    let (po, fs2) := runStrategy generatePublishWorkflow fs1
    let unmanaged := findUnmanagedOccurrences fs2 devcode
    (.ok ⟨locResults, po, unmanaged⟩, fs2)

/- ### Shared lemmas -/

theorem getVal_setVal_self (l : List (String × Json)) (k : String) (v : Json) :
    getVal (setVal l k v) k = some v := by
  induction l with
  | nil => simp [setVal, getVal]
  | cons kv rest ih =>
    obtain ⟨k0, v0⟩ := kv
    by_cases h : k0 = k
    · subst h
      simp [setVal, getVal]
    · simp [setVal, getVal, h, ih]

theorem getVal_setVal_ne (l : List (String × Json)) (k k' : String) (v : Json)
    (h : k' ≠ k) : getVal (setVal l k v) k' = getVal l k' := by
  induction l with
  | nil => simp [setVal, getVal, Ne.symm h]
  | cons kv rest ih =>
    obtain ⟨k0, v0⟩ := kv
    by_cases hk : k0 = k
    · subst hk
      simp [setVal, getVal, Ne.symm h]
    · by_cases hk' : k0 = k'
      · subst hk'
        simp [setVal, getVal, hk]
      · simp [setVal, getVal, hk, hk', ih]

theorem getVal_delVal_self (l : List (String × Json)) (k : String) :
    getVal (delVal l k) k = none := by
  induction l with
  | nil => simp [delVal, getVal]
  | cons kv rest ih =>
    obtain ⟨k0, v0⟩ := kv
    by_cases h : k0 = k
    · subst h
      simpa [delVal, List.filter] using ih
    · simpa [delVal, List.filter, h, getVal] using ih

theorem getVal_delVal_ne (l : List (String × Json)) (k k' : String)
    (h : k' ≠ k) : getVal (delVal l k) k' = getVal l k' := by
  induction l with
  | nil => simp [delVal, getVal]
  | cons kv rest ih =>
    obtain ⟨k0, v0⟩ := kv
    by_cases hk : k0 = k
    · subst hk
      simpa [delVal, List.filter, getVal, Ne.symm h] using ih
    · by_cases hk' : k0 = k'
      · subst hk'
        simp [delVal, List.filter, hk, getVal]
      · simpa [delVal, List.filter, hk, getVal, hk'] using ih

theorem setVal_eq_of_getVal (l : List (String × Json)) (k : String) (v : Json)
    (h : getVal l k = some v) : setVal l k v = l := by
  induction l with
  | nil => simp [getVal] at h
  | cons kv rest ih =>
    obtain ⟨k0, v0⟩ := kv
    by_cases hk : k0 = k
    · subst hk
      simp only [getVal, if_pos rfl, if_pos trivial, Option.some.injEq] at h
      subst h
      simp [setVal]
    · simp only [getVal, if_neg hk] at h
      simp [setVal, hk, ih h]

theorem delVal_delVal (l : List (String × Json)) (k : String) :
    delVal (delVal l k) k = delVal l k := by
  simp [delVal, List.filter_filter]

theorem map_fst_delVal (l : List (String × Json)) (k : String) :
    (delVal l k).map Prod.fst = (l.map Prod.fst).filter (fun s => s ≠ k) := by
  induction l with
  | nil => rfl
  | cons kv rest ih =>
    obtain ⟨k0, v0⟩ := kv
    by_cases h : k0 = k
    · simpa [delVal, List.filter, h] using ih
    · simpa [delVal, List.filter, h] using congrArg (k0 :: ·) ih

theorem map_fst_setVal (l : List (String × Json)) (k : String) (v v0 : Json)
    (h : getVal l k = some v0) : (setVal l k v).map Prod.fst = l.map Prod.fst := by
  induction l with
  | nil => simp [getVal] at h
  | cons kv rest ih =>
    by_cases hk : kv.1 = k
    · simp [setVal, hk]
    · simp only [getVal, if_neg hk] at h
      simp [setVal, hk, ih h]

theorem jsReplace_of_splitFirst {pat s a b : Str} (repl : Str)
    (h : splitFirst pat s = some (a, b)) :
    jsReplace pat repl s = a ++ substDollar pat a b repl ++ b := by
  simp [jsReplace, h]

theorem patchLines_of_no_marker (d p : Str) :
    ∀ ls : List Str, (∀ l ∈ ls, isMarkerLine l = false) →
      patchLines d p ls = ls := by
  intro ls h
  induction ls with
  | nil => rfl
  | cons l rest ih =>
    have hl : isMarkerLine l = false := h l (by simp)
    have hrest := ih (fun l' hl' => h l' (by simp [hl']))
    simp [patchLines, hl, hrest]

theorem patchLines_first (d p : Str) :
    ∀ (pre : List Str) (l : Str) (post : List Str),
      (∀ l' ∈ pre, isMarkerLine l' = false) → isMarkerLine l = true →
      patchLines d p (pre ++ l :: post) = pre ++ jsReplace d p l :: post := by
  intro pre
  induction pre with
  | nil =>
    intro l post _ hl
    simp [patchLines, hl]
  | cons l0 rest ih =>
    intro l post hpre hl
    have h0 : isMarkerLine l0 = false := hpre l0 (by simp)
    have := ih l post (fun l' hl' => hpre l' (by simp [hl'])) hl
    simp [patchLines, h0, this]

theorem applyManaged_map_fst (d p : Str) :
    ∀ (locs : List MLoc) (fs : FS),
      (applyManaged d p locs fs).1.map Prod.fst = locs.map MLoc.file := by
  intro locs
  induction locs with
  | nil => intro fs; rfl
  | cons loc rest ih =>
    intro fs
    simp [applyManaged, ih]

/- ### Concrete fixtures used by the claims -/

/-- `{name: "foo", version: "0.0.0"}` — package metadata without the
non-public marker. -/
def pkgNoPrivate : List (String × Json) :=
  [("name", .str (str "foo")), ("version", .str (str "0.0.0"))]

/-- `{name: "foo", private: true}` — development-project metadata. -/
def pkgPrivate : List (String × Json) :=
  [("name", .str (str "foo")), ("private", .bool true)]

/-- A project whose metadata lacks the `private` marker. -/
def fsNoPrivate : FS := [.file "package.json" (.json (.obj pkgNoPrivate))]

/-- A development project with `private: true`. -/
def fsPrivate : FS := [.file "package.json" (.json (.obj pkgPrivate))]

/-- A project containing a `bun.lockb` *file* whose bytes decode to text
containing the placeholder name, an excluded directory, a managed file
and an ordinary unmanaged file. -/
def fsLockfile : FS :=
  [.file "package.json"
     (.json (.obj [("name", .str (str "my-devcode")), ("private", .bool true)])),
   .file "bun.lockb" (.text (str "deps my-devcode here")),
   .dir "node_modules" [.file "cache.txt" (.text (str "my-devcode"))],
   .file "README.md" (.text (str "see my-devcode docs"))]

/-- A pre-release tagpr workflow text (the draft variant). -/
def devTagprText : Str :=
  str "name: tagpr\njobs:\n  tagpr:\n    steps:\n      - uses: Songmu/tagpr@v1\n"

/-- The failure-tolerance scenario project: valid package metadata and CI
workflow present, codeql config file absent. -/
def fsScenario : FS :=
  [.file "package.json"
     (.json (.obj [("name", .str (str "my-devcode")),
                   ("version", .str (str "0.0.0")),
                   ("private", .bool true)])),
   .dir ".github" [.dir "workflows" [.file "tagpr.yml" (.text devTagprText)]]]

/- ### Claims -/

/-- C1 (counterexample): the claim as stated is false when the target
name contains a `$`-substitution sequence.  For the document
`"name: foo\nfoo"` (placeholder `foo` both inside and outside the
anchored line) and target name `$$`, JavaScript string replacement
rewrites the anchored line to `name: $`, not to the target name
`name: $$` the claim requires. -/
theorem C1_dollar_counterexample :
    replaceInCodeqlConfigContent (str "foo") (str "$$") (str "name: foo\nfoo")
        = str "name: $\nfoo" ∧
      str "name: $\nfoo" ≠ str "name: $$\nfoo" := by
  constructor
  · decide
  · decide

/-- C1 (amended): provided the target name contains no `$`-substitution
sequence, `replaceInCodeqlConfig` substitutes the target name for the
first literal occurrence of the placeholder only inside the first line
whose trimmed content begins with `name:`; every other line (hence every
other occurrence of the placeholder, and every later `name:` line) is
kept byte-for-byte; and a document with no marker line is rewritten
unchanged. -/
theorem C1_line_anchored_scope
    (devcode publishName content : Str)
    (hrepl : hasDollarEscape publishName = false) :
    ((∀ l ∈ splitNl content, isMarkerLine l = false) →
       replaceInCodeqlConfigContent devcode publishName content = content) ∧
    (∀ (pre : List Str) (l : Str) (post : List Str) (a b : Str),
       splitNl content = pre ++ l :: post →
       (∀ l' ∈ pre, isMarkerLine l' = false) →
       isMarkerLine l = true →
       splitFirst devcode l = some (a, b) →
       replaceInCodeqlConfigContent devcode publishName content =
         joinNl (pre ++ (a ++ publishName ++ b) :: post)) := by
  constructor
  · intro h
    unfold replaceInCodeqlConfigContent
    rw [patchLines_of_no_marker _ _ _ h, joinNl_splitNl]
  · intro pre l post a b hsplit hpre hl hocc
    unfold replaceInCodeqlConfigContent
    rw [hsplit, patchLines_first _ _ _ _ _ hpre hl,
      jsReplace_of_splitFirst _ hocc, substDollar_eq_self _ _ _ _ hrepl]

/-- C1 witness: the amended theorem applied to a concrete config whose
placeholder occurs in the anchored line and in a later line; only the
anchored occurrence changes. -/
theorem C1_line_anchored_scope_witness :
    replaceInCodeqlConfigContent (str "my-devcode") (str "@scope/my-package")
        (str "name: CodeQL config for my-devcode\npaths:\n  - my-devcode")
      = str "name: CodeQL config for @scope/my-package\npaths:\n  - my-devcode" :=
  ((C1_line_anchored_scope (str "my-devcode") (str "@scope/my-package")
      (str "name: CodeQL config for my-devcode\npaths:\n  - my-devcode")
      (by decide)).2
    [] (str "name: CodeQL config for my-devcode")
    [str "paths:", str "  - my-devcode"]
    (str "name: CodeQL config for ") []
    (by decide) (by simp) (by decide) (by decide)).trans (by decide)

/-- C10 (confirmed): within the anchored marker line the patcher
replaces only the first literal occurrence of the placeholder: when the
line splits as `a ++ devcode ++ b` at the first occurrence and carries
`n ≥ 2` non-overlapping occurrences in total, the rewritten line is
`a ++ <substituted target> ++ b` — the suffix `b`, holding the other
`n − 1` occurrences, is preserved verbatim. -/
theorem C10_first_occurrence_only
    (devcode pub content : Str) (pre : List Str) (l : Str) (post : List Str)
    (a b : Str) (n : Nat)
    (hpat : devcode ≠ [])
    (hsplit : splitNl content = pre ++ l :: post)
    (hpre : ∀ l' ∈ pre, isMarkerLine l' = false)
    (hl : isMarkerLine l = true)
    (hocc : splitFirst devcode l = some (a, b))
    (hn : countOcc devcode l = n)
    (h2 : 2 ≤ n) :
    replaceInCodeqlConfigContent devcode pub content =
      joinNl (pre ++ (a ++ substDollar devcode a b pub ++ b) :: post) ∧
    countOcc devcode b = n - 1 := by
  constructor
  · unfold replaceInCodeqlConfigContent
    rw [hsplit, patchLines_first _ _ _ _ _ hpre hl, jsReplace_of_splitFirst _ hocc]
  · have := countOcc_cons hpat hocc
    omega

/-- C10 witness: a marker line with two occurrences of the placeholder;
the second survives the rewrite unchanged. -/
theorem C10_first_occurrence_only_witness :
    replaceInCodeqlConfigContent (str "foo") (str "bar") (str "name: foo foo\nx")
        = str "name: bar foo\nx" ∧
      countOcc (str "foo") (str " foo") = 1 := by
  have h := C10_first_occurrence_only (str "foo") (str "bar")
    (str "name: foo foo\nx") [] (str "name: foo foo") [str "x"]
    (str "name: ") (str " foo") 2
    (by decide) (by decide) (by simp) (by decide) (by decide) (by decide)
    (by decide)
  exact ⟨h.1.trans (by decide), h.2⟩

/-- C2 (confirmed): placeholder detection fails with the
package-metadata-missing error when `package.json` is absent, fails with
the not-a-development-project error when the `private` marker is falsy,
and returns the `name` field verbatim when the marker is truthy; in
particular `{name: "foo", version: "0.0.0"}` is rejected and
`{name: "foo", private: true}` yields `"foo"`.  Mutation-freedom holds
by the shape of the embedding: `detectDevcode` consumes the file system
and returns only a value (the source performs reads only). -/
theorem C2_detect_devcode (fs : FS) (pkg : Json) :
    (readFile fs ["package.json"] = none →
       detectDevcode fs = .error (.error pkgNotFoundMsg)) ∧
    (readFile fs ["package.json"] = some (.json pkg) →
       (truthy (jsField pkg "private") = false →
          detectDevcode fs = .error (.error notDevcodeMsg)) ∧
       (truthy (jsField pkg "private") = true →
          detectDevcode fs = .ok (jsField pkg "name"))) ∧
    detectDevcode fsNoPrivate = .error (.error notDevcodeMsg) ∧
    detectDevcode fsPrivate = .ok (.str (str "foo")) := by
  refine ⟨?_, ?_, by rfl, by rfl⟩
  · intro h
    unfold detectDevcode
    rw [h]
  · intro h
    constructor
    · intro hf
      simp [detectDevcode, h, hf]
    · intro ht
      simp [detectDevcode, h, ht]

/-- C2 witness: the detection branches applied to the two concrete
metadata documents of the claim. -/
theorem C2_detect_devcode_witness :
    detectDevcode fsPrivate = .ok (jsField (.obj pkgPrivate) "name") ∧
    detectDevcode fsNoPrivate = .error (.error notDevcodeMsg) :=
  ⟨((C2_detect_devcode fsPrivate (.obj pkgPrivate)).2.1 rfl).2 rfl,
   ((C2_detect_devcode fsNoPrivate (.obj pkgNoPrivate)).2.1 rfl).1 rfl⟩

/-- C3 (confirmed): for a well-formed package-metadata document, the
Structured-Field Patcher sets exactly the `name` field to the target
name, removes the `private` field entirely, preserves the value and
relative order of every other field (the key list is the original one
with `private` deleted), serializes with the two-space pretty printer
plus a trailing newline, and returns the pre-rewrite placeholder name. -/
theorem C3_structured_field_patcher
    (fs : FS) (flds : List (String × Json)) (pub oldName : Str)
    (hread : readFile fs ["package.json"] = some (.json (.obj flds)))
    (hname : getVal flds "name" = some (.str oldName)) :
    ∃ (newFlds : List (String × Json)) (fs' : FS),
      updatePackageJson pub fs = .ok (.str oldName, fs') ∧
      readFile fs' ["package.json"] = some (.json (.obj newFlds)) ∧
      getVal newFlds "name" = some (.str pub) ∧
      getVal newFlds "private" = none ∧
      (∀ k, k ≠ "name" → k ≠ "private" → getVal newFlds k = getVal flds k) ∧
      newFlds.map Prod.fst = (delVal flds "private").map Prod.fst ∧
      FileContent.asText (.json (.obj newFlds)) =
        jsonStringifyPretty (.obj newFlds) ++ ['\n'] := by
  refine ⟨delVal (setVal flds "name" (.str pub)) "private",
    writeFile fs ["package.json"]
      (.json (.obj (delVal (setVal flds "name" (.str pub)) "private"))),
    ?_, ?_, ?_, ?_, ?_, ?_, rfl⟩
  · simp [updatePackageJson, hread, jsField, hname, jsSetField, jsDelField]
  · exact readFile_writeFile fs ["package.json"] _ (by simp)
  · rw [getVal_delVal_ne _ _ _ (by decide), getVal_setVal_self]
  · exact getVal_delVal_self _ _
  · intro k hk1 hk2
    rw [getVal_delVal_ne _ _ _ hk2, getVal_setVal_ne _ _ _ _ hk1]
  · rw [map_fst_delVal, map_fst_delVal, map_fst_setVal _ _ _ _ hname]

/-- C3 witness: the patcher applied to the test-suite document
`{name: "my-devcode", version: "0.0.0", private: true,
description: "Test project"}`. -/
theorem C3_structured_field_patcher_witness :
    ∃ (newFlds : List (String × Json)) (fs' : FS),
      updatePackageJson (str "@scope/my-package")
          [.file "package.json"
            (.json (.obj [("name", .str (str "my-devcode")),
                          ("version", .str (str "0.0.0")),
                          ("private", .bool true),
                          ("description", .str (str "Test project"))]))]
        = .ok (.str (str "my-devcode"), fs') ∧
      readFile fs' ["package.json"] = some (.json (.obj newFlds)) ∧
      getVal newFlds "name" = some (.str (str "@scope/my-package")) ∧
      getVal newFlds "private" = none ∧
      (∀ k, k ≠ "name" → k ≠ "private" →
        getVal newFlds k =
          getVal [("name", Json.str (str "my-devcode")),
                  ("version", Json.str (str "0.0.0")),
                  ("private", Json.bool true),
                  ("description", Json.str (str "Test project"))] k) ∧
      newFlds.map Prod.fst =
        (delVal [("name", Json.str (str "my-devcode")),
                 ("version", Json.str (str "0.0.0")),
                 ("private", Json.bool true),
                 ("description", Json.str (str "Test project"))] "private").map
          Prod.fst ∧
      FileContent.asText (.json (.obj newFlds)) =
        jsonStringifyPretty (.obj newFlds) ++ ['\n'] :=
  C3_structured_field_patcher _ _ (str "@scope/my-package")
    (str "my-devcode") rfl rfl

/-- The whole field rewrite of the Structured-Field Patcher:
set `name`, then delete `private`. -/
def patchDoc (pub : Str) (j : Json) : Json :=
  jsDelField (jsSetField j "name" (.str pub)) "private"

theorem patchDoc_idem (pub : Str) (j : Json) :
    patchDoc pub (patchDoc pub j) = patchDoc pub j := by
  match j with
  | .obj flds =>
    have hname : getVal (delVal (setVal flds "name" (.str pub)) "private")
        "name" = some (.str pub) := by
      rw [getVal_delVal_ne _ _ _ (by decide), getVal_setVal_self]
    simp only [patchDoc, jsSetField, jsDelField]
    rw [setVal_eq_of_getVal _ _ _ hname, delVal_delVal]
  | .undefined | .null | .bool _ | .num _ | .str _ | .arr _ =>
    rfl

theorem jsField_private_patchDoc (pub : Str) (j : Json) :
    jsField (patchDoc pub j) "private" = .undefined := by
  match j with
  | .obj flds =>
    simp [patchDoc, jsSetField, jsDelField, jsField, getVal_delVal_self]
  | .undefined | .null | .bool _ | .num _ | .str _ | .arr _ =>
    rfl

/-- C4 (confirmed): the Structured-Field Patcher is idempotent — on any
parseable package-metadata document, running it twice with the same
target name leaves the document exactly as after the first run, and the
`private` marker stays absent. -/
theorem C4_patcher_idempotent (fs : FS) (j : Json) (dev pub : Str)
    (hread : readFile fs ["package.json"] = some (.json j)) :
    ∃ fs1 fs2,
      replaceInPackageJson dev pub fs = .ok fs1 ∧
      replaceInPackageJson dev pub fs1 = .ok fs2 ∧
      readFile fs2 ["package.json"] = readFile fs1 ["package.json"] ∧
      ∃ j1, readFile fs1 ["package.json"] = some (.json j1) ∧
        jsField j1 "private" = .undefined := by
  refine ⟨writeFile fs ["package.json"] (.json (patchDoc pub j)),
    writeFile (writeFile fs ["package.json"] (.json (patchDoc pub j)))
      ["package.json"] (.json (patchDoc pub j)), ?_, ?_, ?_, ?_⟩
  · simp [replaceInPackageJson, hread, patchDoc]
  · have h1 : readFile (writeFile fs ["package.json"] (.json (patchDoc pub j)))
        ["package.json"] = some (.json (patchDoc pub j)) :=
      readFile_writeFile fs ["package.json"] _ (by simp)
    simp only [replaceInPackageJson, h1]
    rw [show jsDelField (jsSetField (patchDoc pub j) "name" (.str pub)) "private"
        = patchDoc pub (patchDoc pub j) from rfl, patchDoc_idem]
  · rw [readFile_writeFile _ ["package.json"] _ (by simp),
      readFile_writeFile _ ["package.json"] _ (by simp)]
  · exact ⟨patchDoc pub j,
      readFile_writeFile fs ["package.json"] _ (by simp),
      jsField_private_patchDoc pub j⟩

/-- C4 witness: double application on the scenario project's metadata. -/
theorem C4_patcher_idempotent_witness :
    ∃ fs1 fs2,
      replaceInPackageJson (str "my-devcode") (str "@scope/my-package")
          fsScenario = .ok fs1 ∧
      replaceInPackageJson (str "my-devcode") (str "@scope/my-package")
          fs1 = .ok fs2 ∧
      readFile fs2 ["package.json"] = readFile fs1 ["package.json"] ∧
      ∃ j1, readFile fs1 ["package.json"] = some (.json j1) ∧
        jsField j1 "private" = .undefined :=
  C4_patcher_idempotent fsScenario
    (.obj [("name", .str (str "my-devcode")),
           ("version", .str (str "0.0.0")),
           ("private", .bool true)])
    (str "my-devcode") (str "@scope/my-package") rfl

/-- C5 (confirmed): only placeholder detection can abort the
orchestrator — once detection succeeds, the run always completes to its
terminal report with one outcome entry per managed location (errors are
caught as warnings, never re-raised); and in the concrete
failure-tolerance scenario (config file absent, metadata and CI workflow
present and valid) the run reaches `Done` with every location reported
successful, the absent location a no-op that still does not exist
afterwards, and no unmanaged occurrence. -/
theorem C5_failure_tolerance :
    (∀ (pub : Str) (fs : FS) (v : Json), detectDevcode fs = .ok v →
       ∃ rep, (prepareRelease pub fs).1 = .ok rep ∧
         rep.locations.map Prod.fst = MANAGED_LOCATIONS.map MLoc.file) ∧
    (prepareRelease (str "@scope/my-package") fsScenario).1 =
      .ok (Report.mk
        [("package.json", .ok),
         (".github/codeql/codeql-config.yml", .ok),
         (".github/workflows/tagpr.yml", .ok)] .ok []) ∧
    readFile (prepareRelease (str "@scope/my-package") fsScenario).2
      codeqlPath = none := by
  refine ⟨?_, ?_, by rfl⟩
  · intro pub fs v hdet
    simp only [prepareRelease, hdet]
    exact ⟨_, rfl, applyManaged_map_fst _ _ _ _⟩
  · have hdet : detectDevcode fsScenario = .ok (.str (str "my-devcode")) := rfl
    simp only [prepareRelease, hdet]
    rfl

/-- C5 witness: completion applied to a concrete development project. -/
theorem C5_failure_tolerance_witness :
    ∃ rep, (prepareRelease (str "@scope/pkg") fsPrivate).1 = .ok rep ∧
      rep.locations.map Prod.fst = MANAGED_LOCATIONS.map MLoc.file :=
  C5_failure_tolerance.1 (str "@scope/pkg") fsPrivate (.str (str "foo")) rfl

/-- C6 (code bug): the scanner's exclusion list
`['node_modules', '.git', 'dist', 'bun.lockb']` is only consulted for
*directory* names, so a `bun.lockb` regular file is read and its
occurrence of the placeholder is reported, contradicting the claim that
lockfiles are never read or reported.  The same run shows the claim's
remaining behaviour: the managed `package.json` and the excluded
`node_modules` subtree are not reported, the ordinary `README.md` is. -/
theorem C6_lockfile_scanned :
    findUnmanagedOccurrences fsLockfile (str "my-devcode") =
      [⟨"bun.lockb", 1, str "deps my-devcode here"⟩,
       ⟨"README.md", 1, str "see my-devcode docs"⟩] ∧
    ((findUnmanagedOccurrences fsLockfile (str "my-devcode")).map
        Occurrence.file).contains "bun.lockb" = true := by
  constructor
  · decide
  · decide

/-- C7 (counterexample): the claim "every Managed Location strategy
returns success on an absent file" fails for the package-metadata
strategy — on a project with no `package.json` it propagates the raw
file-not-found error instead of succeeding. -/
theorem C7_absent_package_json :
    replaceInPackageJson (str "my-devcode") (str "@scope/my-package") []
      = .error (.enoent "package.json") := by
  rfl

/-- C7 (amended): the codeql-config and tagpr-workflow strategies, whose
files are optional, return success on an absent file without creating it
or touching any other file (the file system is returned unchanged); the
package-metadata strategy instead fails with the file-not-found error
(also without modifying anything) — in the full run its file is
guaranteed present by the preceding detection step. -/
theorem C7_no_op_on_absent_file (dev pub : Str) (fs : FS) :
    (readFile fs codeqlPath = none →
       replaceInCodeqlConfig dev pub fs = .ok fs) ∧
    (readFile fs tagprPath = none →
       replaceInTagprWorkflow dev pub fs = .ok fs) ∧
    (readFile fs ["package.json"] = none →
       replaceInPackageJson dev pub fs = .error (.enoent "package.json")) := by
  refine ⟨?_, ?_, ?_⟩
  · intro h
    simp [replaceInCodeqlConfig, h]
  · intro h
    simp [replaceInTagprWorkflow, h]
  · intro h
    simp [replaceInPackageJson, h]

/-- C7 witness: the amended behaviour on the empty project. -/
theorem C7_no_op_on_absent_file_witness :
    replaceInCodeqlConfig (str "d") (str "p") [] = .ok [] ∧
    replaceInTagprWorkflow (str "d") (str "p") [] = .ok [] ∧
    replaceInPackageJson (str "d") (str "p") []
      = .error (.enoent "package.json") :=
  ⟨(C7_no_op_on_absent_file (str "d") (str "p") []).1 rfl,
   (C7_no_op_on_absent_file (str "d") (str "p") []).2.1 rfl,
   (C7_no_op_on_absent_file (str "d") (str "p") []).2.2 rfl⟩

/-- C8 (confirmed; the release variant of the workflow template is not
among the sources and is modelled from the spec): rewriting an existing
tagpr workflow overwrites it with the release-variant render, which
contains no reference to `secrets.GITHUB_TOKEN`, no
`TODO: After replace-devcode` marker comment, and references the
long-lived `secrets.PAT_FOR_TAGPR` credential. -/
theorem C8_tagpr_regeneration (dev pub : Str) (fs : FS) (fc : FileContent)
    (hread : readFile fs tagprPath = some fc) :
    ∃ fs', replaceInTagprWorkflow dev pub fs = .ok fs' ∧
      readFile fs' tagprPath = some (.text releaseTagprTemplate) ∧
      containsStr (str "secrets.GITHUB_TOKEN") releaseTagprTemplate = false ∧
      containsStr (str "TODO: After replace-devcode") releaseTagprTemplate
        = false ∧
      containsStr (str "secrets.PAT_FOR_TAGPR") releaseTagprTemplate = true := by
  refine ⟨writeFile fs tagprPath (.text releaseTagprTemplate), ?_,
    readFile_writeFile fs tagprPath _ (by decide), by decide, by decide, by decide⟩
  simp [replaceInTagprWorkflow, hread]

/-- C8 witness: the regeneration applied to the scenario project, whose
draft workflow file exists. -/
theorem C8_tagpr_regeneration_witness :
    ∃ fs', replaceInTagprWorkflow (str "my-devcode") (str "@scope/my-package")
        fsScenario = .ok fs' ∧
      readFile fs' tagprPath = some (.text releaseTagprTemplate) ∧
      containsStr (str "secrets.GITHUB_TOKEN") releaseTagprTemplate = false ∧
      containsStr (str "TODO: After replace-devcode") releaseTagprTemplate
        = false ∧
      containsStr (str "secrets.PAT_FOR_TAGPR") releaseTagprTemplate = true :=
  C8_tagpr_regeneration (str "my-devcode") (str "@scope/my-package")
    fsScenario (.text devTagprText) rfl

/-- C9 (confirmed): fatal precondition failures are atomic — whenever
the run fails with the package-metadata-missing or
not-a-development-project error, the file system is returned exactly as
it was: detection precedes every write and is the only step whose error
escapes. -/
theorem C9_fatal_precondition_atomic (pub : Str) (fs : FS) (e : JsError)
    (herr : (prepareRelease pub fs).1 = .error e)
    (_hfatal : e = .error pkgNotFoundMsg ∨ e = .error notDevcodeMsg) :
    (prepareRelease pub fs).2 = fs := by
  unfold prepareRelease at *
  match hdet : detectDevcode fs with
  | .error e' => rfl
  | .ok v =>
    rw [hdet] at herr
    simp at herr

/-- C9 witness: the empty project fails with the
package-metadata-missing error and is left untouched. -/
theorem C9_fatal_precondition_atomic_witness :
    (prepareRelease (str "@scope/pkg") []).2 = [] :=
  C9_fatal_precondition_atomic (str "@scope/pkg") []
    (.error pkgNotFoundMsg) rfl (Or.inl rfl)

end SetupRepo
